import Mathlib

/-
Verification of the nanomongo document layer (nanomongo/document.py).

The Python module is shallowly embedded: Python dicts become association
lists built exclusively through `dinsert` (Python `d[k] = v` semantics:
replace in place, else append), exceptions become an explicit `Err` sum
type returned through `Except`, and the document-store client is an
opaque handle.  Field declarations (`Field` from nanomongo/field.py),
the error classes (nanomongo/errors.py) and the dot-notation mixin
(nanomongo/util.py) are not part of the sources; they are modelled from
the specification where noted.
-/

set_option autoImplicit false

namespace nanomongo

/-- Python runtime values that can appear as document field values in the
claims under study: `None`, booleans, integers, strings and BSON
ObjectIds (modelled as an opaque numeric handle). -/
inductive PyVal where
  | pynone
  | pybool (b : Bool)
  | pyint (n : Int)
  | pystr (s : String)
  | oid (n : Nat)
deriving DecidableEq

/-- Modelled from the spec: nanomongo/errors.py is absent from the
sources, so the error classes it exports (`ValidationError`,
`ExtraFieldError`, `ConfigurationError`) are modelled as constructors,
alongside the Python builtins `TypeError` and `KeyError` and the
spec's `UnknownFieldError` taxon.  `ValidationError` is split into the
three message shapes the code and spec use: an undeclared field found
on an instance, a required field missing, and a value rejected by a
field validator. -/
inductive Err where
  | typeError (msg : String)
  | configurationError (msg : String)
  | extraFieldError (field : String) (value : PyVal)
  | validationExtraField (field : String) (value : PyVal)
  | validationRequiredMissing (field : String)
  | validationBadValue (field : String) (value : PyVal)
  | keyError (key : String)
  | unknownFieldError (field : String)
deriving DecidableEq

/-- Whether an error is (an instance of) the Python `ValidationError` class. -/
def Err.isValidationError : Err → Bool
  | .validationExtraField _ _ => true
  | .validationRequiredMissing _ => true
  | .validationBadValue _ _ => true
  | _ => false

/-- Whether an error is the Python `ExtraFieldError` class. -/
def Err.isExtraFieldError : Err → Bool
  | .extraFieldError _ _ => true
  | _ => false

/-- Whether an error is the spec's `UnknownFieldError` taxon. -/
def Err.isUnknownFieldError : Err → Bool
  | .unknownFieldError _ => true
  | _ => false

/-- The error carried by a failed computation, if any. -/
def errOf {α : Type} : Except Err α → Option Err
  | .error e => some e
  | .ok _ => none

/-- Modelled from the spec: a FieldSpec default is "a value or a
zero-argument provider invoked per instance" (spec §3); the code checks
`callable(val)` and calls it. -/
inductive DefaultVal where
  | val (v : PyVal)
  | gen (f : Unit → PyVal)

/-- `val() if callable(val) else val` (document.py line 148). -/
def materializeDefault : DefaultVal → PyVal
  | .val v => v
  | .gen f => f ()

/-- Modelled from the spec: nanomongo/field.py is absent from the
sources.  Per spec §3 a FieldSpec has `required : bool`, an optional
`default_value`, and a validation capability
`validate(value, field_name) -> value | fails`; the code accesses
exactly the attributes `required`, `default_value` (via `hasattr`) and
`validator` (called as `validator(value, field_name=field_name)`). -/
structure Field where
  required : Bool
  default_value : Option DefaultVal
  validator : PyVal → String → Except Err PyVal

section DictOps

variable {α : Type}

/-- Python dict lookup `d[k]` over the insertion-ordered entry list:
the (unique) binding of `k`, searched front to back. -/
def dlookup : List (String × α) → String → Option α
  | [], _ => none
  | (k', v) :: rest, k => if k' = k then some v else dlookup rest k

/-- Python dict assignment `d[k] = v`: replace the value at an existing
key in place (keeping its position), else append the new binding. -/
def dinsert (k : String) (v : α) : List (String × α) → List (String × α)
  | [] => [(k, v)]
  | (k', w) :: rest => if k' = k then (k', v) :: rest else (k', w) :: dinsert k v rest

/-- Python `k in d`. -/
def hasKey (d : List (String × α)) (k : String) : Bool :=
  (dlookup d k).isSome

/-- The keys of a dict, in order. -/
def dkeys (d : List (String × α)) : List String :=
  d.map Prod.fst

/-- A genuine Python dict has pairwise-distinct keys. -/
def keysNodup (d : List (String × α)) : Prop :=
  (dkeys d).Nodup

theorem dlookup_nil (k : String) : dlookup ([] : List (String × α)) k = none := rfl

theorem dlookup_cons (k' k : String) (v : α) (rest : List (String × α)) :
    dlookup ((k', v) :: rest) k = if k' = k then some v else dlookup rest k := rfl

theorem dlookup_append (d₁ d₂ : List (String × α)) (k : String) :
    dlookup (d₁ ++ d₂) k = (dlookup d₁ k).orElse (fun _ => dlookup d₂ k) := by
  induction d₁ with
  | nil => simp [dlookup]
  | cons kv rest ih =>
    obtain ⟨k', v⟩ := kv
    by_cases h : k' = k <;> simp [dlookup, h, ih]

theorem dlookup_dinsert (k k' : String) (v : α) (d : List (String × α)) :
    dlookup (dinsert k v d) k' = if k = k' then some v else dlookup d k' := by
  induction d with
  | nil => simp [dinsert, dlookup]
  | cons kv rest ih =>
    obtain ⟨k₀, w⟩ := kv
    by_cases h : k₀ = k
    · subst h
      by_cases h' : k₀ = k' <;> simp [dinsert, dlookup, h']
    · by_cases h' : k₀ = k'
      · subst h'
        have hk : ¬k = k₀ := fun he => h (he ▸ rfl)
        have hk' : ¬k₀ = k := fun he => h he
        simp [dinsert, dlookup, hk, hk']
      · simp [dinsert, dlookup, h, h', ih]

theorem mem_dkeys_iff_dlookup (d : List (String × α)) (k : String) :
    k ∈ dkeys d ↔ (dlookup d k).isSome := by
  induction d with
  | nil => simp [dkeys, dlookup]
  | cons kv rest ih =>
    obtain ⟨k', v⟩ := kv
    by_cases h : k' = k
    · subst h
      simp [dkeys, dlookup]
    · simp only [dkeys, List.map_cons, List.mem_cons, dlookup, h, if_false]
      rw [← dkeys, ih]
      constructor
      · rintro (h1 | h1)
        · exact absurd h1.symm h
        · exact h1
      · exact Or.inr

theorem hasKey_iff_mem (d : List (String × α)) (k : String) :
    hasKey d k = true ↔ k ∈ dkeys d := by
  rw [mem_dkeys_iff_dlookup]; simp [hasKey]

theorem dlookup_eq_some_of_mem (d : List (String × α)) (k : String) (v : α)
    (hnd : keysNodup d) (h : (k, v) ∈ d) : dlookup d k = some v := by
  induction d with
  | nil => simp at h
  | cons kv rest ih =>
    obtain ⟨k', w⟩ := kv
    simp only [keysNodup, dkeys, List.map_cons, List.nodup_cons] at hnd
    rcases List.mem_cons.mp h with h1 | h2
    · obtain ⟨hk, hv⟩ := Prod.mk.injEq .. ▸ h1
      simp [dlookup, hk.symm, hv]
    · have hk : k' ≠ k := by
        intro he
        exact hnd.1 (he ▸ (List.mem_map.mpr ⟨(k, v), h2, rfl⟩))
      simp [dlookup, hk]
      exact ih hnd.2 h2

theorem mem_of_dlookup_eq_some (d : List (String × α)) (k : String) (v : α)
    (h : dlookup d k = some v) : (k, v) ∈ d := by
  induction d with
  | nil => simp [dlookup] at h
  | cons kv rest ih =>
    obtain ⟨k', w⟩ := kv
    by_cases hk : k' = k
    · subst hk
      simp [dlookup] at h
      simp [h]
    · simp [dlookup, hk] at h
      exact List.mem_cons_of_mem _ (ih h)

theorem mem_dkeys_dinsert (k k' : String) (v : α) (d : List (String × α)) :
    k' ∈ dkeys (dinsert k v d) ↔ k' = k ∨ k' ∈ dkeys d := by
  rw [mem_dkeys_iff_dlookup, dlookup_dinsert, mem_dkeys_iff_dlookup]
  by_cases h : k = k'
  · subst h
    simp
  · have h' : ¬k' = k := fun he => h he.symm
    simp [h, h']

theorem keysNodup_dinsert (k : String) (v : α) (d : List (String × α))
    (hnd : keysNodup d) : keysNodup (dinsert k v d) := by
  induction d with
  | nil => simp [dinsert, keysNodup, dkeys]
  | cons kv rest ih =>
    obtain ⟨k₀, w⟩ := kv
    simp only [keysNodup, dkeys, List.map_cons, List.nodup_cons] at hnd
    by_cases h : k₀ = k
    · subst h
      simpa [dinsert, keysNodup, dkeys] using hnd
    · have hrest := ih hnd.2
      simp only [dinsert, h, if_false]
      simp only [keysNodup, dkeys, List.map_cons, List.nodup_cons]
      refine ⟨?_, hrest⟩
      intro hmem
      rcases (mem_dkeys_dinsert k k₀ v rest).mp hmem with h1 | h1
      · exact h (h1 ▸ rfl)
      · exact hnd.1 h1

end DictOps

/-- A value bound in a class-declaration namespace (`dct`): either a
`Field` declaration or any other attribute (method, docstring, ...),
which the schema build ignores. -/
inductive Attr where
  | field (f : Field)
  | plain (tag : Nat)

/-- `isinstance(field_value, Field)`. -/
def Attr.isField : Attr → Bool
  | .field _ => true
  | .plain _ => false

/-- The declared `Field`, if this attribute is one. -/
def Attr.fieldVal : Attr → Option Field
  | .field f => some f
  | .plain _ => none

/-- An opaque pymongo/motor client handle. -/
abbrev Client := Nat

/-- The handle `client[database][collection]` returned by
`Nanomongo.get_collection`. -/
structure Collection where
  client : Client
  dbName : String
  colName : String
deriving DecidableEq

/-- The per-type schema registry (document.py class `Nanomongo`):
field mapping plus storage coordinates, all unset after `__init__`. -/
structure Nanomongo where
  fields : List (String × Field)
  client : Option Client := none
  database : Option String := none
  collection : Option String := none

/-- Python falsiness of an optional string slot: `None` and `''` are
falsy, every other string is truthy. -/
def strUnset (o : Option String) : Bool :=
  o.getD "" == ""

/-- `Nanomongo.get_collection` (document.py lines 64-72): check client,
then database, then collection, and return `client[database][collection]`. -/
def Nanomongo.get_collection (n : Nanomongo) : Except Err Collection :=
  match n.client with
  | none => .error (.configurationError "Mongo client not set")
  | some c =>
    if strUnset n.database then .error (.configurationError "db not set")
    else if strUnset n.collection then .error (.configurationError "collection not set")
    else .ok ⟨c, n.database.getD "", n.collection.getD ""⟩

/-- `Nanomongo.validate` (document.py lines 42-44):
`self.fields[field_name].validator(value, field_name=field_name)`.
A missing key makes the Python dict subscript raise `KeyError`. -/
def Nanomongo.validate (n : Nanomongo) (field_name : String) (value : PyVal) :
    Except Err PyVal :=
  match dlookup n.fields field_name with
  | none => .error (.keyError field_name)
  | some f => f.validator value field_name

/-- One step of the `from_dicts` loop body: keep the binding only when
the value is a `Field`. -/
def fieldsStep (acc : List (String × Field)) (kv : String × Attr) :
    List (String × Field) :=
  match kv.2 with
  | .field f => dinsert kv.1 f acc
  | .plain _ => acc

/-- The inner loop of `Nanomongo.from_dicts` over one input dict. -/
def fieldsOfDict (acc : List (String × Field)) (dct : List (String × Attr)) :
    List (String × Field) :=
  dct.foldl fieldsStep acc

/-- `Nanomongo.from_dicts` (document.py lines 20-32): start from a fresh
empty mapping and overlay the `Field`-valued entries of each argument in
order, later arguments winning on key collision. -/
def from_dicts (args : List (List (String × Attr))) : List (String × Field) :=
  args.foldl fieldsOfDict []

/-- View an existing field mapping as a namespace dict (every value is
a `Field`), as in `Nanomongo.from_dicts(cls.nanomongo.fields, dct)`. -/
def wrapFields (pf : List (String × Field)) : List (String × Attr) :=
  pf.map (fun kv => (kv.1, Attr.field kv.2))

/-- Modelled from the spec: the validator of `Field(ObjectId)` (field.py
is absent), "given a raw value and a field name, return a
validated/coerced value or fail" — accept exactly ObjectId values. -/
def objectIdValidator : PyVal → String → Except Err PyVal :=
  fun v name =>
    match v with
    | .oid _ => .ok v
    | _ => .error (.validationBadValue name v)

/-- The injected identifier field `Field(ObjectId, required=False)`
(document.py line 98): not required, no default. -/
def idObjField : Field :=
  { required := false, default_value := none, validator := objectIdValidator }

/-- The schema-inheritance merge performed by `DocumentMeta.__init__`
(document.py lines 93-96): `Nanomongo.from_dicts(parent_fields, dct)`. -/
def mergeFields (pf : List (String × Field)) (dct : List (String × Attr)) :
    List (String × Field) :=
  from_dicts [wrapFields pf, dct]

/-- The full field-mapping construction of `DocumentMeta.__init__`
(document.py lines 93-98): merge the parent's fields (none for the root
type) with the new declarations, then inject `_id` if absent. -/
def documentMetaInitFields (parent : Option (List (String × Field)))
    (dct : List (String × Attr)) : List (String × Field) :=
  let merged := mergeFields (parent.getD []) dct
  if hasKey merged "_id" then merged else dinsert "_id" idObjField merged

/-- The last `Field`-valued binding of a key in a namespace dict — the
binding that survives the `from_dicts` overlay. -/
def lastFieldBinding : List (String × Attr) → String → Option Field
  | [], _ => none
  | (k', a) :: rest, k =>
    (lastFieldBinding rest k).orElse (fun _ => if k' = k then a.fieldVal else none)

theorem orElse_none_fun {α : Type} (f : Unit → Option α) :
    (none : Option α).orElse f = f () := rfl

theorem orElse_some_fun {α : Type} (a : α) (f : Unit → Option α) :
    (some a).orElse f = some a := rfl

theorem wrapFields_nil : wrapFields [] = [] := rfl

theorem wrapFields_cons (k : String) (f : Field) (rest : List (String × Field)) :
    wrapFields ((k, f) :: rest) = (k, Attr.field f) :: wrapFields rest := rfl

theorem dlookup_fieldsOfDict (dct : List (String × Attr))
    (acc : List (String × Field)) (k : String) :
    dlookup (fieldsOfDict acc dct) k =
      (lastFieldBinding dct k).orElse (fun _ => dlookup acc k) := by
  induction dct generalizing acc with
  | nil => simp [fieldsOfDict, lastFieldBinding, orElse_none_fun]
  | cons ka rest ih =>
    obtain ⟨k', a⟩ := ka
    show dlookup (fieldsOfDict (fieldsStep acc (k', a)) rest) k = _
    rw [ih]
    cases hr : lastFieldBinding rest k with
    | some f => simp [lastFieldBinding, hr, orElse_some_fun]
    | none =>
      simp only [lastFieldBinding, hr, orElse_none_fun]
      cases a with
      | field f =>
        by_cases hk : k' = k
        · subst hk
          simp [fieldsStep, Attr.fieldVal, dlookup_dinsert]
        · have hk2 : ¬k = k' := fun he => hk he.symm
          simp [fieldsStep, Attr.fieldVal, dlookup_dinsert, hk, hk2]
      | plain t =>
        by_cases hk : k' = k <;> simp [fieldsStep, Attr.fieldVal, hk]

theorem keysNodup_fieldsOfDict (dct : List (String × Attr))
    (acc : List (String × Field)) (hnd : keysNodup acc) :
    keysNodup (fieldsOfDict acc dct) := by
  induction dct generalizing acc with
  | nil => exact hnd
  | cons ka rest ih =>
    obtain ⟨k', a⟩ := ka
    show keysNodup (fieldsOfDict (fieldsStep acc (k', a)) rest)
    apply ih
    cases a with
    | field f => exact keysNodup_dinsert _ _ _ hnd
    | plain t => exact hnd

theorem keysNodup_mergeFields (pf : List (String × Field))
    (dct : List (String × Attr)) : keysNodup (mergeFields pf dct) := by
  show keysNodup (fieldsOfDict (fieldsOfDict [] (wrapFields pf)) dct)
  apply keysNodup_fieldsOfDict
  apply keysNodup_fieldsOfDict
  simp [keysNodup, dkeys]

theorem lastFieldBinding_eq_none (dct : List (String × Attr)) (k : String)
    (h : ∀ ka ∈ dct, ka.1 = k → ka.2.isField = false) :
    lastFieldBinding dct k = none := by
  induction dct with
  | nil => rfl
  | cons ka rest ih =>
    obtain ⟨k', a⟩ := ka
    have hrest := ih (fun kb hb => h kb (List.mem_cons_of_mem _ hb))
    simp only [lastFieldBinding, hrest, Option.orElse]
    by_cases hk : k' = k
    · have := h (k', a) (List.mem_cons_self _ _) hk
      cases a with
      | field f => simp [Attr.isField] at this
      | plain t => simp [hk, Attr.fieldVal]
    · simp [hk]

theorem lastFieldBinding_wrap_of_not_mem (pf : List (String × Field)) (k : String)
    (h : k ∉ dkeys pf) : lastFieldBinding (wrapFields pf) k = none := by
  induction pf with
  | nil => rfl
  | cons kv rest ih =>
    obtain ⟨k', f⟩ := kv
    simp only [dkeys, List.map_cons, List.mem_cons] at h
    push_neg at h
    have hrest := ih h.2
    have hk : ¬k' = k := fun he => h.1 he.symm
    rw [wrapFields_cons]
    simp only [lastFieldBinding, hrest, orElse_none_fun, hk, if_false]

theorem lastFieldBinding_wrap (pf : List (String × Field)) (k : String)
    (hnd : keysNodup pf) : lastFieldBinding (wrapFields pf) k = dlookup pf k := by
  induction pf with
  | nil => rfl
  | cons kv rest ih =>
    obtain ⟨k', f⟩ := kv
    simp only [keysNodup, dkeys, List.map_cons, List.nodup_cons] at hnd
    rw [wrapFields_cons]
    by_cases hk : k' = k
    · subst hk
      have hnone : lastFieldBinding (wrapFields rest) k' = none :=
        lastFieldBinding_wrap_of_not_mem rest k' hnd.1
      simp [lastFieldBinding, hnone, orElse_none_fun, dlookup, Attr.fieldVal]
    · have hrest := ih hnd.2
      simp only [lastFieldBinding, hrest, dlookup, hk, if_false]
      cases dlookup rest k <;> simp [orElse_none_fun, orElse_some_fun]

/-- The overlay semantics of the schema merge: the subtype's `Field`
declarations win, everything else falls through to the parent. -/
theorem dlookup_mergeFields (pf : List (String × Field))
    (dct : List (String × Attr)) (k : String) (hnd : keysNodup pf) :
    dlookup (mergeFields pf dct) k =
      (lastFieldBinding dct k).orElse (fun _ => dlookup pf k) := by
  show dlookup (fieldsOfDict (fieldsOfDict [] (wrapFields pf)) dct) k = _
  rw [dlookup_fieldsOfDict, dlookup_fieldsOfDict, lastFieldBinding_wrap pf k hnd]
  cases lastFieldBinding dct k <;> cases dlookup pf k <;>
    simp [Option.orElse, dlookup]

theorem lastFieldBinding_of_mem (dct : List (String × Attr)) (k : String)
    (f : Field) (hnd : keysNodup dct) (h : (k, Attr.field f) ∈ dct) :
    lastFieldBinding dct k = some f := by
  induction dct with
  | nil => simp at h
  | cons ka rest ih =>
    obtain ⟨k', a⟩ := ka
    simp only [keysNodup, dkeys, List.map_cons, List.nodup_cons] at hnd
    rcases List.mem_cons.mp h with h1 | h1
    · obtain ⟨hk, ha⟩ := Prod.mk.injEq .. ▸ h1
      subst hk
      have hnone : lastFieldBinding rest k = none := by
        apply lastFieldBinding_eq_none
        intro kb hb hkb
        exact absurd (hkb ▸ (List.mem_map.mpr ⟨kb, hb, rfl⟩)) hnd.1
      simp [lastFieldBinding, hnone, orElse_none_fun, ha.symm, Attr.fieldVal]
    · have hr := ih hnd.2 h1
      simp [lastFieldBinding, hr, orElse_some_fun]

/-- Modelled from the spec: a concrete `Field(str)` validator (field.py
is absent) — accept exactly string values. -/
def strValidator : PyVal → String → Except Err PyVal :=
  fun v name =>
    match v with
    | .pystr _ => .ok v
    | _ => .error (.validationBadValue name v)

/-- Modelled from the spec: a concrete `Field(int)` validator — accept
exactly integer values. -/
def intValidator : PyVal → String → Except Err PyVal :=
  fun v name =>
    match v with
    | .pyint _ => .ok v
    | _ => .error (.validationBadValue name v)

/-- `Field(str)`: a required string field. -/
def strField : Field :=
  { required := true, default_value := none, validator := strValidator }

/-- `Field(int, required=False)`: an optional integer field. -/
def intFieldOpt : Field :=
  { required := false, default_value := none, validator := intValidator }

/-- C1: for every declared record type, the built schema's field mapping
contains exactly one identifier field named `_id`; if neither the
declaring type nor its parent declared one, `Field(ObjectId,
required=False)` — not required and with no default — is injected. -/
theorem c1_exactly_one_id (parent : Option (List (String × Field)))
    (dct : List (String × Attr)) :
    (dkeys (documentMetaInitFields parent dct)).count "_id" = 1
    ∧ ((∀ pf, parent = some pf → hasKey pf "_id" = false) →
       (∀ ka ∈ dct, ka.1 = "_id" → ka.2.isField = false) →
       dlookup (documentMetaInitFields parent dct) "_id" = some idObjField
       ∧ idObjField.required = false ∧ idObjField.default_value = none) := by
  have hmnd : keysNodup (mergeFields (parent.getD []) dct) :=
    keysNodup_mergeFields _ _
  constructor
  · by_cases hid : hasKey (mergeFields (parent.getD []) dct) "_id"
    · have hres : documentMetaInitFields parent dct
          = mergeFields (parent.getD []) dct := by
        simp [documentMetaInitFields, hid]
      rw [hres]
      exact List.count_eq_one_of_mem hmnd ((hasKey_iff_mem _ _).mp hid)
    · have hres : documentMetaInitFields parent dct
          = dinsert "_id" idObjField (mergeFields (parent.getD []) dct) := by
        simp [documentMetaInitFields, hid]
      rw [hres]
      exact List.count_eq_one_of_mem
        (keysNodup_dinsert _ _ _ hmnd)
        ((mem_dkeys_dinsert _ _ _ _).mpr (Or.inl rfl))
  · intro hp hd
    have hpf : hasKey (parent.getD []) "_id" = false := by
      cases parent with
      | none => rfl
      | some pf => exact hp pf rfl
    have hwrap : lastFieldBinding (wrapFields (parent.getD [])) "_id" = none := by
      apply lastFieldBinding_wrap_of_not_mem
      intro hmem
      rw [← hasKey_iff_mem] at hmem
      rw [hpf] at hmem
      exact Bool.false_ne_true hmem
    have hdct : lastFieldBinding dct "_id" = none := lastFieldBinding_eq_none dct _ hd
    have hm : dlookup (mergeFields (parent.getD []) dct) "_id" = none := by
      show dlookup (fieldsOfDict (fieldsOfDict [] (wrapFields (parent.getD []))) dct)
          "_id" = none
      rw [dlookup_fieldsOfDict, dlookup_fieldsOfDict, hdct, hwrap]
      rfl
    have hid : hasKey (mergeFields (parent.getD []) dct) "_id" = false := by
      simp [hasKey, hm]
    have hres : documentMetaInitFields parent dct
        = dinsert "_id" idObjField (mergeFields (parent.getD []) dct) := by
      simp [documentMetaInitFields, hid]
    refine ⟨?_, rfl, rfl⟩
    rw [hres, dlookup_dinsert]
    simp

/-- C1 witness at a concrete parent schema and declaration namespace. -/
theorem c1_exactly_one_id_w :
    (∀ pf, (some [("foo", strField)] : Option (List (String × Field))) = some pf →
      hasKey pf "_id" = false)
    ∧ (∀ ka ∈ ([("bar", Attr.field intFieldOpt), ("m", Attr.plain 0)] :
        List (String × Attr)), ka.1 = "_id" → ka.2.isField = false)
    ∧ dlookup (documentMetaInitFields (some [("foo", strField)])
        [("bar", Attr.field intFieldOpt), ("m", Attr.plain 0)]) "_id"
        = some idObjField := by
  have h1 : ∀ pf, (some [("foo", strField)] : Option (List (String × Field)))
      = some pf → hasKey pf "_id" = false := by
    intro pf hpf
    cases hpf
    rfl
  have h2 : ∀ ka ∈ ([("bar", Attr.field intFieldOpt), ("m", Attr.plain 0)] :
      List (String × Attr)), ka.1 = "_id" → ka.2.isField = false := by
    intro ka hka hk
    rcases List.mem_cons.mp hka with h | h
    · subst h; simp at hk
    · rcases List.mem_cons.mp h with h' | h'
      · subst h'; simp at hk
      · simp at h'
  exact ⟨h1, h2, ((c1_exactly_one_id (some [("foo", strField)])
    [("bar", Attr.field intFieldOpt), ("m", Attr.plain 0)]).2 h1 h2).1⟩

/-- A heap of Python dict objects holding field mappings, addressed by
allocation index; models object identity for the schema-inheritance
merge ("a fresh mapping, the parent's mapping left unchanged"). -/
abbrev Heap := List (List (String × Field))

/-- Dereference a dict id. -/
def heapGet (h : Heap) (i : Nat) : Option (List (String × Field)) :=
  h[i]?

/-- `DocumentMeta.__init__` (document.py lines 93-98) at the heap level:
`Nanomongo.from_dicts` reads the parent's field dict (if any), builds a
brand-new dict (`fields = {}` then overlay), and the `_id` injection
then writes only into that new dict. -/
def documentMetaInitH (h : Heap) (p : Option Nat) (dct : List (String × Attr)) :
    Heap × Nat :=
  let pf := match p with
    | some i => (heapGet h i).getD []
    | none => []
  let merged := mergeFields pf dct
  let fid := h.length
  if hasKey merged "_id" then (h ++ [merged], fid)
  else ((h ++ [merged]).set fid (dinsert "_id" idObjField merged), fid)

/-- C2: the subtype's field mapping is the union of the parent's fields
and the subtype's own declarations; the subtype's FieldSpec replaces
(never merges with) the parent's on a name collision; the result is a
fresh mapping and the parent's field mapping is left unchanged. -/
theorem c2_inheritance_merge (h : Heap) (p : Nat) (dct : List (String × Attr))
    (pf : List (String × Field)) (hp : heapGet h p = some pf)
    (hndp : keysNodup pf) (hndd : keysNodup dct) :
    heapGet (documentMetaInitH h (some p) dct).1 p = some pf
    ∧ heapGet h (documentMetaInitH h (some p) dct).2 = none
    ∧ heapGet (documentMetaInitH h (some p) dct).1 (documentMetaInitH h (some p) dct).2
        = some (documentMetaInitFields (some pf) dct)
    ∧ (∀ k f, (k, Attr.field f) ∈ dct → dlookup (mergeFields pf dct) k = some f)
    ∧ (∀ k, (∀ a, (k, a) ∈ dct → a.isField = false) →
        dlookup (mergeFields pf dct) k = dlookup pf k) := by
  have hp' : h[p]? = some pf := hp
  obtain ⟨hplt, -⟩ := List.getElem?_eq_some_iff.mp hp'
  have hpne : h.length ≠ p := fun he => absurd (he ▸ hplt) (lt_irrefl _)
  have hlen : h.length < (h ++ [mergeFields pf dct]).length := by
    simp
  refine ⟨?_, ?_, ?_, ?_, ?_⟩
  · show heapGet (documentMetaInitH h (some p) dct).1 p = some pf
    simp only [documentMetaInitH, heapGet, hp', Option.getD_some]
    by_cases hid : hasKey (mergeFields pf dct) "_id"
    · rw [if_pos hid]
      show (h ++ [mergeFields pf dct])[p]? = some pf
      exact (List.getElem?_append_left hplt).trans hp'
    · rw [if_neg hid]
      show (List.set (h ++ [mergeFields pf dct]) h.length
        (dinsert "_id" idObjField (mergeFields pf dct)))[p]? = some pf
      rw [List.getElem?_set_ne hpne]
      exact (List.getElem?_append_left hplt).trans hp'
  · show heapGet h (documentMetaInitH h (some p) dct).2 = none
    simp only [documentMetaInitH, heapGet, hp', Option.getD_some]
    by_cases hid : hasKey (mergeFields pf dct) "_id"
    · rw [if_pos hid]
      exact List.getElem?_eq_none (le_refl h.length)
    · rw [if_neg hid]
      exact List.getElem?_eq_none (le_refl h.length)
  · show heapGet (documentMetaInitH h (some p) dct).1
        (documentMetaInitH h (some p) dct).2 = some (documentMetaInitFields (some pf) dct)
    simp only [documentMetaInitH, heapGet, hp', Option.getD_some]
    by_cases hid : hasKey (mergeFields pf dct) "_id"
    · rw [if_pos hid]
      show (h ++ [mergeFields pf dct])[h.length]? = some (documentMetaInitFields (some pf) dct)
      have hdf : documentMetaInitFields (some pf) dct = mergeFields pf dct := by
        simp [documentMetaInitFields, hid]
      rw [hdf]
      exact List.getElem?_concat_length h _
    · rw [if_neg hid]
      show (List.set (h ++ [mergeFields pf dct]) h.length
          (dinsert "_id" idObjField (mergeFields pf dct)))[h.length]?
          = some (documentMetaInitFields (some pf) dct)
      have hdf : documentMetaInitFields (some pf) dct
          = dinsert "_id" idObjField (mergeFields pf dct) := by
        simp only [documentMetaInitFields, Option.getD_some]
        rw [if_neg hid]
      rw [hdf, List.getElem?_set_self hlen]
  · intro k f hkf
    rw [dlookup_mergeFields pf dct k hndp,
      lastFieldBinding_of_mem dct k f hndd hkf]
    rfl
  · intro k hk
    rw [dlookup_mergeFields pf dct k hndp]
    rw [lastFieldBinding_eq_none dct k ?_]
    · rfl
    · intro ka hka hk1
      subst hk1
      exact hk ka.2 (by simpa using hka)

/-- C2 witness: a concrete heap with one parent schema, a subtype that
overrides `foo` and adds `bar`. -/
theorem c2_inheritance_merge_w :
    heapGet [[("foo", strField)]] 0 = some [("foo", strField)]
    ∧ keysNodup ([("foo", strField)] : List (String × Field))
    ∧ keysNodup ([("foo", Attr.field intFieldOpt), ("bar", Attr.field strField)] :
        List (String × Attr))
    ∧ heapGet (documentMetaInitH [[("foo", strField)]] (some 0)
        [("foo", Attr.field intFieldOpt), ("bar", Attr.field strField)]).1 0
        = some [("foo", strField)]
    ∧ dlookup (mergeFields [("foo", strField)]
        [("foo", Attr.field intFieldOpt), ("bar", Attr.field strField)]) "foo"
        = some intFieldOpt := by
  have h1 : heapGet [[("foo", strField)]] 0 = some [("foo", strField)] := rfl
  have h2 : keysNodup ([("foo", strField)] : List (String × Field)) := by
    simp [keysNodup, dkeys]
  have h3 : keysNodup ([("foo", Attr.field intFieldOpt), ("bar", Attr.field strField)] :
      List (String × Attr)) := by
    simp [keysNodup, dkeys]
  have hc := c2_inheritance_merge [[("foo", strField)]] 0
    [("foo", Attr.field intFieldOpt), ("bar", Attr.field strField)]
    [("foo", strField)] h1 h2 h3
  exact ⟨h1, h2, h3, hc.1, hc.2.2.2.1 "foo" intFieldOpt (List.mem_cons_self _ _)⟩

/-- The positional argument of `BaseDocument.__init__`: either a dict
(or dict subclass) of seed values, or any non-dict object. -/
inductive PosArg where
  | dict (entries : List (String × PyVal))
  | nonDict (tag : Nat)

/-- The merge loop of `BaseDocument.__init__` (document.py lines
139-142): each key of the positional dict that is absent from `kwargs`
is added to `kwargs` (a new dict key appends at the end); keys already
present keep their keyword value. -/
def mergeArgs (es : List (String × PyVal)) (kwargs : List (String × PyVal)) :
    List (String × PyVal) :=
  es.foldl (fun kw kv => if hasKey kw kv.1 then kw else kw ++ [kv]) kwargs

/-- The keyword mapping after the positional dict (if any) has been
merged in. -/
def mergedKwargs (arg : Option PosArg) (kwargs : List (String × PyVal)) :
    List (String × PyVal) :=
  match arg with
  | some (.dict es) => mergeArgs es kwargs
  | _ => kwargs

/-- `dict.__init__(self, *args, **kwargs)` (document.py line 144): the
fresh instance mapping is seeded with the positional dict's entries,
then the (already merged) keyword entries. -/
def dictInit (arg : Option PosArg) (kw : List (String × PyVal)) :
    List (String × PyVal) :=
  let s0 := match arg with
    | some (.dict es) => es.foldl (fun s kv => dinsert kv.1 kv.2 s) []
    | _ => []
  kw.foldl (fun s kv => dinsert kv.1 kv.2 s) s0

/-- The defaults loop of `BaseDocument.__init__` (document.py lines
145-148): every schema field with a `default_value` gets it set
(calling it if callable), with no validation. -/
def applyDefaults (fields : List (String × Field)) (s : List (String × PyVal)) :
    List (String × PyVal) :=
  fields.foldl
    (fun s kv =>
      match kv.2.default_value with
      | some d => dinsert kv.1 (materializeDefault d) s
      | none => s) s

/-- The keyword loop of `BaseDocument.__init__` (document.py lines
149-155): for each supplied name in order, validate and store it if
declared, else raise `ExtraFieldError`.  The validator's return value
is discarded; the raw supplied value is stored. -/
def setKwargs (fields : List (String × Field)) :
    List (String × PyVal) → List (String × PyVal) → Except Err (List (String × PyVal))
  | s, [] => .ok s
  | s, (k, v) :: rest =>
    match dlookup fields k with
    | some f =>
      match f.validator v k with
      | .error e => .error e
      | .ok _ => setKwargs fields (dinsert k v s) rest
    | none => .error (.extraFieldError k v)

/-- `BaseDocument.__init__` (document.py lines 134-155). -/
def baseDocumentInit (fields : List (String × Field)) (arg : Option PosArg)
    (kwargs : List (String × PyVal)) : Except Err (List (String × PyVal)) :=
  match arg with
  | some (.nonDict _) => .error (.typeError "dict or dict subclass argument expected")
  | _ =>
    let kw := mergedKwargs arg kwargs
    setKwargs fields (applyDefaults fields (dictInit arg kw)) kw

/-- The first loop of `BaseDocument.validate_all` (document.py lines
185-187): any present field not in the schema raises `ValidationError`. -/
def checkExtraFields (fields : List (String × Field)) :
    List (String × PyVal) → Except Err Unit
  | [] => .ok ()
  | (k, v) :: rest =>
    if hasKey fields k then checkExtraFields fields rest
    else .error (.validationExtraField k v)

/-- The second loop of `BaseDocument.validate_all` (document.py lines
188-192): run each present declared field's validator; a missing
required field raises `ValidationError`. -/
def checkDeclaredFields (doc : List (String × PyVal)) :
    List (String × Field) → Except Err Unit
  | [] => .ok ()
  | (name, f) :: rest =>
    match dlookup doc name with
    | some v =>
      match f.validator v name with
      | .error e => .error e
      | .ok _ => checkDeclaredFields doc rest
    | none =>
      if f.required then .error (.validationRequiredMissing name)
      else checkDeclaredFields doc rest

/-- `BaseDocument.validate_all` (document.py lines 183-193); the final
user-overridable `validate()` hook is the default no-op `pass`. -/
def validate_all (fields : List (String × Field)) (doc : List (String × PyVal)) :
    Except Err Unit :=
  match checkExtraFields fields doc with
  | .error e => .error e
  | .ok _ => checkDeclaredFields doc fields

/-- An operation issued to the document store.  `collectionSave` is
pymongo/motor `collection.save(document, **kwargs)` — a full-document
write; `updateOp` is a partial atomic update (`$set`/`$unset`) as the
spec describes for `save(atomic=true)`. -/
inductive StoreOp where
  | collectionSave (col : Collection) (doc : List (String × PyVal))
      (kwargs : List (String × PyVal))
  | updateOp (col : Collection) (filter : List (String × PyVal))
      (sets : List (String × PyVal)) (unsets : List String)
deriving DecidableEq

/-- Whether a store operation is a partial atomic update. -/
def StoreOp.isUpdateOp : StoreOp → Bool
  | .updateOp .. => true
  | _ => false

/-- `BaseDocument.save` (document.py lines 195-199): run
`validate_all`, then `self.get_collection().save(self, **kwargs)` —
whatever keyword arguments the caller passed (including `atomic=True`)
are forwarded verbatim to the full-document `collection.save`. -/
def save (nano : Nanomongo) (doc : List (String × PyVal))
    (kwargs : List (String × PyVal)) : Except Err StoreOp :=
  match validate_all nano.fields doc with
  | .error e => .error e
  | .ok _ =>
    match nano.get_collection with
    | .error e => .error e
    | .ok col => .ok (.collectionSave col doc kwargs)

/-- C7: `get_collection` fails with `ConfigurationError` naming exactly
which of client, database, collection is unset, checked in that order,
and returns the `client[database][collection]` handle when all three
are set. -/
theorem c7_get_collection (n : Nanomongo) :
    (n.client = none →
      n.get_collection = .error (.configurationError "Mongo client not set"))
    ∧ (n.client ≠ none → strUnset n.database = true →
      n.get_collection = .error (.configurationError "db not set"))
    ∧ (n.client ≠ none → strUnset n.database = false → strUnset n.collection = true →
      n.get_collection = .error (.configurationError "collection not set"))
    ∧ (∀ c db col, n.client = some c → n.database = some db → db ≠ "" →
      n.collection = some col → col ≠ "" → n.get_collection = .ok ⟨c, db, col⟩) := by
  refine ⟨?_, ?_, ?_, ?_⟩
  · intro hc
    simp [Nanomongo.get_collection, hc]
  · intro hc hdb
    cases hcl : n.client with
    | none => exact absurd hcl hc
    | some c => simp [Nanomongo.get_collection, hcl, hdb]
  · intro hc hdb hcol
    cases hcl : n.client with
    | none => exact absurd hcl hc
    | some c => simp [Nanomongo.get_collection, hcl, hdb, hcol]
  · intro c db col hc hdb hdbne hcol hcolne
    have h1 : strUnset (some db) = false := by
      simp [strUnset]
      exact hdbne
    have h2 : strUnset (some col) = false := by
      simp [strUnset]
      exact hcolne
    simp [Nanomongo.get_collection, hc, hdb, hcol, h1, h2]

/-- A registry with all three storage coordinates set. -/
def nanoC7 : Nanomongo :=
  { fields := [], client := some 0, database := some "nanotestdb",
    collection := some "doc" }

/-- C7 witness: a registry with all three coordinates set resolves to
the concrete collection handle. -/
theorem c7_get_collection_w :
    nanoC7.client = some 0
    ∧ nanoC7.get_collection = .ok ⟨0, "nanotestdb", "doc"⟩ :=
  ⟨rfl, (c7_get_collection nanoC7).2.2.2 0 "nanotestdb" "doc" rfl rfl
    (by decide) rfl (by decide)⟩

/-- A concrete registry for the `Nanomongo.validate` claim: one declared
string field `foo`, no field named `x`. -/
def nanoC8 : Nanomongo :=
  { fields := [("foo", strField)] }

/-- C8 counterexample: looking up an unregistered name makes
`Nanomongo.validate` raise the Python dict `KeyError`, not an
`UnknownFieldError` (which document.py neither imports nor defines). -/
theorem c8_keyerror_not_unknownfield :
    Nanomongo.validate nanoC8 "x" (.pystr "v") = .error (.keyError "x")
    ∧ (errOf (Nanomongo.validate nanoC8 "x" (.pystr "v"))).map Err.isUnknownFieldError
        = some false := by
  constructor
  · rfl
  · rfl

/-- C8 as amended: `Nanomongo.validate` delegates to the named
FieldSpec's validator, returning the validated value; for a name not
registered in the schema it fails with the mapping-lookup `KeyError`. -/
theorem c8_validate_delegates (n : Nanomongo) (name : String) (value : PyVal) :
    (∀ f, dlookup n.fields name = some f →
      n.validate name value = f.validator value name)
    ∧ (dlookup n.fields name = none →
      n.validate name value = .error (.keyError name)) := by
  constructor
  · intro f hf
    simp [Nanomongo.validate, hf]
  · intro hf
    simp [Nanomongo.validate, hf]

/-- C8 witness: delegation at a registered name. -/
theorem c8_validate_delegates_w :
    dlookup nanoC8.fields "foo" = some strField
    ∧ Nanomongo.validate nanoC8 "foo" (.pystr "v")
        = strField.validator (.pystr "v") "foo" :=
  ⟨rfl, (c8_validate_delegates nanoC8 "foo" (.pystr "v")).1 strField rfl⟩

/-- The registry of the partial-update scenario: schema
`{_id: ObjectId, foo: str (required), bar: int (optional)}` bound to a
client, database and collection. -/
def nanoC3 : Nanomongo :=
  { fields := [("_id", idObjField), ("foo", strField), ("bar", intFieldOpt)],
    client := some 0, database := some "nanotestdb", collection := some "doc" }

/-- The document of the partial-update scenario after mutating a Clean
instance: `foo` was set to a new value and `bar` was removed. -/
def docC3 : List (String × PyVal) :=
  [("_id", .oid 7), ("foo", .pystr "b")]

/-- C3: `save(atomic=True)` on the mutated instance issues a
full-document `collection.save(self, atomic=True)` — not a partial
update with one set and one unset operation, and a second identical
call issues the same full write rather than a no-op: the `atomic`
keyword is forwarded blindly and no diff/snapshot machinery exists. -/
theorem c3_save_is_full_write :
    save nanoC3 docC3 [("atomic", .pybool true)]
      = .ok (.collectionSave ⟨0, "nanotestdb", "doc"⟩ docC3 [("atomic", .pybool true)])
    ∧ (save nanoC3 docC3 [("atomic", .pybool true)]).map StoreOp.isUpdateOp
      = .ok false := by
  constructor
  · rfl
  · rfl

/-- Whether a computation succeeded. -/
def exceptOk {α : Type} : Except Err α → Bool
  | .ok _ => true
  | .error _ => false

/-- Whether the positional argument (if any) passes the
`isinstance(args[0], dict)` check. -/
def argOk : Option PosArg → Bool
  | some (.nonDict _) => false
  | _ => true

/-- Whether a supplied value would pass its declared field's validator
(vacuously true for undeclared names). -/
def validatorOk (fields : List (String × Field)) (k : String) (v : PyVal) : Bool :=
  match dlookup fields k with
  | some f => exceptOk (f.validator v k)
  | none => true

theorem mergeArgs_cons (k : String) (v : PyVal) (rest es0 : List (String × PyVal)) :
    mergeArgs ((k, v) :: rest) es0
      = mergeArgs rest (if hasKey es0 k then es0 else es0 ++ [(k, v)]) := rfl

theorem dlookup_mergeArgs_of_some (es : List (String × PyVal)) :
    ∀ (kwargs : List (String × PyVal)) (k : String) (v : PyVal),
      dlookup kwargs k = some v → dlookup (mergeArgs es kwargs) k = some v := by
  induction es with
  | nil => intro kwargs k v h; exact h
  | cons kv rest ih =>
    intro kwargs k v h
    obtain ⟨k', v'⟩ := kv
    rw [mergeArgs_cons]
    apply ih
    by_cases hk : hasKey kwargs k'
    · rw [if_pos hk]; exact h
    · rw [if_neg hk, dlookup_append, h]
      rfl

theorem dlookup_mergeArgs_of_none (es : List (String × PyVal)) :
    ∀ (kwargs : List (String × PyVal)) (k : String) (v : PyVal),
      dlookup kwargs k = none → dlookup es k = some v →
      dlookup (mergeArgs es kwargs) k = some v := by
  induction es with
  | nil => intro kwargs k v _ h; simp [dlookup] at h
  | cons kv rest ih =>
    intro kwargs k v hkw hes
    obtain ⟨k', v'⟩ := kv
    rw [mergeArgs_cons]
    by_cases hk : k' = k
    · subst hk
      rw [dlookup_cons, if_pos rfl] at hes
      have hnk : ¬hasKey kwargs k' := by simp [hasKey, hkw]
      rw [if_neg hnk]
      apply dlookup_mergeArgs_of_some
      rw [dlookup_append, hkw]
      show dlookup [(k', v')] k' = some v
      rw [dlookup_cons, if_pos rfl, hes]
    · rw [dlookup_cons, if_neg hk] at hes
      apply ih _ _ _ _ hes
      by_cases hk2 : hasKey kwargs k'
      · rw [if_pos hk2]; exact hkw
      · rw [if_neg hk2, dlookup_append, hkw]
        show dlookup [(k', v')] k = none
        rw [dlookup_cons, if_neg hk]
        rfl

theorem setKwargs_lookup_not_mem (fields : List (String × Field)) :
    ∀ (kw s d : List (String × PyVal)) (k : String),
      setKwargs fields s kw = .ok d → k ∉ dkeys kw → dlookup d k = dlookup s k := by
  intro kw
  induction kw with
  | nil =>
    intro s d k h _
    cases h
    rfl
  | cons kv rest ih =>
    intro s d k h hk
    obtain ⟨k0, v0⟩ := kv
    simp only [dkeys, List.map_cons, List.mem_cons] at hk
    push_neg at hk
    cases hf : dlookup fields k0 with
    | none => simp [setKwargs, hf] at h
    | some f =>
      cases hv : f.validator v0 k0 with
      | error e => simp [setKwargs, hf, hv] at h
      | ok w =>
        simp only [setKwargs, hf, hv] at h
        have hd := ih (dinsert k0 v0 s) d k h hk.2
        rw [hd, dlookup_dinsert, if_neg (fun he => hk.1 he.symm)]

theorem setKwargs_ok_lookup (fields : List (String × Field)) :
    ∀ (kw s d : List (String × PyVal)), keysNodup kw →
      setKwargs fields s kw = .ok d →
      ∀ (k : String) (v : PyVal), dlookup kw k = some v → dlookup d k = some v := by
  intro kw
  induction kw with
  | nil =>
    intro s d _ _ k v h
    simp [dlookup] at h
  | cons kv rest ih =>
    intro s d hnd h k v hkv
    obtain ⟨k0, v0⟩ := kv
    simp only [keysNodup, dkeys, List.map_cons, List.nodup_cons] at hnd
    cases hf : dlookup fields k0 with
    | none => simp [setKwargs, hf] at h
    | some f =>
      cases hv : f.validator v0 k0 with
      | error e => simp [setKwargs, hf, hv] at h
      | ok w =>
        simp only [setKwargs, hf, hv] at h
        by_cases hk : k0 = k
        · subst hk
          rw [dlookup_cons, if_pos rfl] at hkv
          have hnm : k0 ∉ dkeys rest := fun hmem => hnd.1 hmem
          rw [setKwargs_lookup_not_mem fields rest _ d k0 h hnm,
            dlookup_dinsert, if_pos rfl, hkv]
        · rw [dlookup_cons, if_neg hk] at hkv
          exact ih (dinsert k0 v0 s) d hnd.2 h k v hkv

theorem setKwargs_first_extra (fields : List (String × Field)) :
    ∀ (kw s : List (String × PyVal)),
      (∀ kv ∈ kw, validatorOk fields kv.1 kv.2 = true) →
      (∃ kv ∈ kw, hasKey fields kv.1 = false) →
      ∃ k v, setKwargs fields s kw = .error (.extraFieldError k v)
        ∧ hasKey fields k = false := by
  intro kw
  induction kw with
  | nil =>
    intro s _ hex
    obtain ⟨kv, hmem, -⟩ := hex
    simp at hmem
  | cons kv rest ih =>
    intro s hok hex
    obtain ⟨k0, v0⟩ := kv
    cases hf : dlookup fields k0 with
    | none =>
      refine ⟨k0, v0, ?_, ?_⟩
      · simp only [setKwargs, hf]
      · simp [hasKey, hf]
    | some f =>
      have hvok := hok (k0, v0) (List.mem_cons_self _ _)
      simp only [validatorOk, hf] at hvok
      cases hv : f.validator v0 k0 with
      | error e => simp [hv, exceptOk] at hvok
      | ok w =>
        have hex' : ∃ kv ∈ rest, hasKey fields kv.1 = false := by
          obtain ⟨kv', hmem, hkv'⟩ := hex
          rcases List.mem_cons.mp hmem with h1 | h1
          · rw [h1] at hkv'
            simp only [hasKey, hf] at hkv'
            cases hkv'
          · exact ⟨kv', h1, hkv'⟩
        obtain ⟨k, v, hset, hkf⟩ :=
          ih (dinsert k0 v0 s) (fun kv' h' => hok kv' (List.mem_cons_of_mem _ h')) hex'
        refine ⟨k, v, ?_, hkf⟩
        simp only [setKwargs, hf, hv]
        exact hset

/-- The concrete schema used for the construction claims: one required
string field `foo`. -/
def fieldsC4 : List (String × Field) := [("foo", strField)]

/-- C4 counterexample: supplying an invalid value for a declared field
*before* the undeclared field makes construction fail with the
validator's `ValidationError`, not `ExtraFieldError` — so the claim's
"regardless of whether the other supplied fields are valid" is false. -/
theorem c4_validation_preempts_extra :
    baseDocumentInit fieldsC4 none [("foo", .pyint 0), ("extra", .pyint 1)]
      = .error (.validationBadValue "foo" (.pyint 0))
    ∧ (errOf (baseDocumentInit fieldsC4 none [("foo", .pyint 0), ("extra", .pyint 1)])).map
        Err.isExtraFieldError = some false
    ∧ (errOf (baseDocumentInit fieldsC4 none [("foo", .pyint 0), ("extra", .pyint 1)])).map
        Err.isValidationError = some true := by
  refine ⟨rfl, rfl, rfl⟩

/-- C4 as amended: construction with an undeclared named field fails
with `ExtraFieldError` provided every supplied declared field's value
passes its validator (the keyword loop validates in supply order, so an
earlier invalid declared value raises `ValidationError` first). -/
theorem c4_extra_field_rejected (fields : List (String × Field))
    (arg : Option PosArg) (kwargs : List (String × PyVal))
    (hargs : argOk arg = true)
    (hok : ∀ kv ∈ mergedKwargs arg kwargs, validatorOk fields kv.1 kv.2 = true)
    (hex : ∃ kv ∈ mergedKwargs arg kwargs, hasKey fields kv.1 = false) :
    ∃ k v, baseDocumentInit fields arg kwargs = .error (.extraFieldError k v)
      ∧ hasKey fields k = false := by
  cases arg with
  | none => exact setKwargs_first_extra fields (mergedKwargs none kwargs) _ hok hex
  | some a =>
    cases a with
    | dict es =>
      exact setKwargs_first_extra fields (mergedKwargs (some (.dict es)) kwargs) _ hok hex
    | nonDict t => simp [argOk] at hargs

/-- C4 witness: valid declared field plus an undeclared one. -/
theorem c4_extra_field_rejected_w :
    argOk none = true
    ∧ (∀ kv ∈ mergedKwargs none [("foo", PyVal.pystr "ok"), ("extra", PyVal.pyint 1)],
        validatorOk fieldsC4 kv.1 kv.2 = true)
    ∧ (∃ kv ∈ mergedKwargs none [("foo", PyVal.pystr "ok"), ("extra", PyVal.pyint 1)],
        hasKey fieldsC4 kv.1 = false)
    ∧ ∃ k v, baseDocumentInit fieldsC4 none
        [("foo", PyVal.pystr "ok"), ("extra", PyVal.pyint 1)]
        = .error (.extraFieldError k v) ∧ hasKey fieldsC4 k = false := by
  refine ⟨rfl, ?_, ?_, ?_⟩
  · intro kv hkv
    rcases List.mem_cons.mp hkv with h | h
    · subst h; rfl
    · rcases List.mem_cons.mp h with h' | h'
      · subst h'; rfl
      · simp at h'
  · exact ⟨("extra", PyVal.pyint 1), by simp [mergedKwargs], rfl⟩
  · apply c4_extra_field_rejected fieldsC4 none _ rfl
    · intro kv hkv
      rcases List.mem_cons.mp hkv with h | h
      · subst h; rfl
      · rcases List.mem_cons.mp h with h' | h'
        · subst h'; rfl
        · simp at h'
    · exact ⟨("extra", PyVal.pyint 1), by simp [mergedKwargs], rfl⟩

/-- C6: construction merges a positional mapping into the named values
without overwriting them — on a key collision the named-argument value
wins, both in the merged keyword mapping and in the constructed
document — and fails with `TypeError` if the positional argument is not
a mapping. -/
theorem c6_positional_merge (fields : List (String × Field)) :
    (∀ (t : Nat) (kwargs : List (String × PyVal)),
      baseDocumentInit fields (some (.nonDict t)) kwargs
        = .error (.typeError "dict or dict subclass argument expected"))
    ∧ (∀ (es kwargs : List (String × PyVal)) (k : String) (v : PyVal),
        dlookup kwargs k = some v → dlookup (mergeArgs es kwargs) k = some v)
    ∧ (∀ (es kwargs : List (String × PyVal)) (k : String) (v : PyVal),
        dlookup kwargs k = none → dlookup es k = some v →
        dlookup (mergeArgs es kwargs) k = some v)
    ∧ (∀ (es kwargs d : List (String × PyVal)) (k : String) (v : PyVal),
        keysNodup (mergeArgs es kwargs) →
        baseDocumentInit fields (some (.dict es)) kwargs = .ok d →
        dlookup kwargs k = some v → dlookup d k = some v) := by
  refine ⟨fun _ _ => rfl, dlookup_mergeArgs_of_some, dlookup_mergeArgs_of_none, ?_⟩
  intro es kwargs d k v hnd hinit hkw
  have hmerged : dlookup (mergeArgs es kwargs) k = some v :=
    dlookup_mergeArgs_of_some es kwargs k v hkw
  exact setKwargs_ok_lookup fields (mergeArgs es kwargs) _ d hnd hinit k v hmerged

/-- C6 witness: seed dict `{a: 1, b: 2}` with keyword `a = 9`; the
keyword value wins for `a`, the seed fills in `b`, and a non-dict
positional argument raises `TypeError`. -/
theorem c6_positional_merge_w :
    dlookup [("a", PyVal.pyint 9)] "a" = some (.pyint 9)
    ∧ dlookup ([("a", PyVal.pyint 1), ("b", PyVal.pyint 2)] :
        List (String × PyVal)) "b" = some (.pyint 2)
    ∧ dlookup (mergeArgs [("a", PyVal.pyint 1), ("b", PyVal.pyint 2)]
        [("a", PyVal.pyint 9)]) "a" = some (.pyint 9)
    ∧ dlookup (mergeArgs [("a", PyVal.pyint 1), ("b", PyVal.pyint 2)]
        [("a", PyVal.pyint 9)]) "b" = some (.pyint 2)
    ∧ baseDocumentInit fieldsC4 (some (.nonDict 0)) []
        = .error (.typeError "dict or dict subclass argument expected") := by
  refine ⟨rfl, rfl, ?_, ?_, ?_⟩
  · exact (c6_positional_merge fieldsC4).2.1 _ _ "a" (.pyint 9) rfl
  · exact (c6_positional_merge fieldsC4).2.2.1 _ _ "b" (.pyint 2) rfl rfl
  · exact (c6_positional_merge fieldsC4).1 0 []

theorem setKwargs_ok_of_all (fields : List (String × Field)) :
    ∀ (kw : List (String × PyVal)),
      (∀ kv ∈ kw, hasKey fields kv.1 = true ∧ validatorOk fields kv.1 kv.2 = true) →
      ∀ s, ∃ d, setKwargs fields s kw = .ok d := by
  intro kw
  induction kw with
  | nil => intro _ s; exact ⟨s, rfl⟩
  | cons kv rest ih =>
    intro hok s
    obtain ⟨k0, v0⟩ := kv
    obtain ⟨hkey, hvok⟩ := hok (k0, v0) (List.mem_cons_self _ _)
    cases hf : dlookup fields k0 with
    | none => simp [hasKey, hf] at hkey
    | some f =>
      simp only [validatorOk, hf] at hvok
      cases hv : f.validator v0 k0 with
      | error e => simp [hv, exceptOk] at hvok
      | ok w =>
        obtain ⟨d, hd⟩ :=
          ih (fun kv' h' => hok kv' (List.mem_cons_of_mem _ h')) (dinsert k0 v0 s)
        refine ⟨d, ?_⟩
        simp only [setKwargs, hf, hv]
        exact hd

theorem applyDefaults_lookup_not_mem (name : String) :
    ∀ (fields : List (String × Field)) (s : List (String × PyVal)),
      name ∉ dkeys fields → dlookup (applyDefaults fields s) name = dlookup s name := by
  intro fields
  induction fields with
  | nil => intro s _; rfl
  | cons kf rest ih =>
    intro s hname
    obtain ⟨k0, f0⟩ := kf
    simp only [dkeys, List.map_cons, List.mem_cons] at hname
    push_neg at hname
    show dlookup (applyDefaults rest
      (match f0.default_value with
        | some d => dinsert k0 (materializeDefault d) s
        | none => s)) name = dlookup s name
    cases hdv : f0.default_value with
    | none => exact ih s hname.2
    | some d =>
      rw [ih _ hname.2, dlookup_dinsert, if_neg (fun he => hname.1 he.symm)]

theorem applyDefaults_lookup (name : String) (f : Field) (dv : DefaultVal) :
    ∀ (fields : List (String × Field)) (s : List (String × PyVal)),
      keysNodup fields → (name, f) ∈ fields → f.default_value = some dv →
      dlookup (applyDefaults fields s) name = some (materializeDefault dv) := by
  intro fields
  induction fields with
  | nil => intro s _ hmem _; simp at hmem
  | cons kf rest ih =>
    intro s hnd hmem hdv
    obtain ⟨k0, f0⟩ := kf
    simp only [keysNodup, dkeys, List.map_cons, List.nodup_cons] at hnd
    rcases List.mem_cons.mp hmem with h1 | h1
    · obtain ⟨hk, hf⟩ := Prod.mk.injEq .. ▸ h1
      subst hk
      have hdv0 : f0.default_value = some dv := hf ▸ hdv
      show dlookup (applyDefaults rest
        (match f0.default_value with
          | some d => dinsert name (materializeDefault d) s
          | none => s)) name = some (materializeDefault dv)
      simp only [hdv0]
      rw [applyDefaults_lookup_not_mem name rest _ hnd.1, dlookup_dinsert, if_pos rfl]
    · have hk0 : k0 ≠ name := by
        intro he
        exact hnd.1 (he ▸ (List.mem_map.mpr ⟨(name, f), h1, rfl⟩))
      show dlookup (applyDefaults rest
        (match f0.default_value with
          | some d => dinsert k0 (materializeDefault d) s
          | none => s)) name = some (materializeDefault dv)
      cases f0.default_value with
      | none => exact ih _ hnd.2 h1 hdv
      | some d => exact ih _ hnd.2 h1 hdv

/-- C10: at construction every schema field that declares a default gets
it materialized (calling it if callable) and stored without passing
through the field's validator — the constructor's success and the
stored defaults only depend on the validators' verdicts on the values
the caller actually supplied. -/
theorem c10_defaults_not_validated (fields : List (String × Field))
    (arg : Option PosArg) (kwargs : List (String × PyVal))
    (hargs : argOk arg = true) (hndf : keysNodup fields)
    (hok : ∀ kv ∈ mergedKwargs arg kwargs,
      hasKey fields kv.1 = true ∧ validatorOk fields kv.1 kv.2 = true) :
    ∃ d, baseDocumentInit fields arg kwargs = .ok d
      ∧ ∀ name f dv, (name, f) ∈ fields → f.default_value = some dv →
          hasKey (mergedKwargs arg kwargs) name = false →
          dlookup d name = some (materializeDefault dv) := by
  have hmain : ∀ s0, ∃ d,
      setKwargs fields (applyDefaults fields s0) (mergedKwargs arg kwargs) = .ok d
      ∧ ∀ name f dv, (name, f) ∈ fields → f.default_value = some dv →
          hasKey (mergedKwargs arg kwargs) name = false →
          dlookup d name = some (materializeDefault dv) := by
    intro s0
    obtain ⟨d, hd⟩ := setKwargs_ok_of_all fields (mergedKwargs arg kwargs) hok
      (applyDefaults fields s0)
    refine ⟨d, hd, ?_⟩
    intro name f dv hmem hdv hnk
    have hnotin : name ∉ dkeys (mergedKwargs arg kwargs) := by
      intro hmem'
      rw [← hasKey_iff_mem] at hmem'
      rw [hnk] at hmem'
      exact Bool.false_ne_true hmem'
    rw [setKwargs_lookup_not_mem fields (mergedKwargs arg kwargs) _ d name hd hnotin]
    exact applyDefaults_lookup name f dv fields s0 hndf hmem hdv
  cases arg with
  | none => exact hmain (dictInit none (mergedKwargs none kwargs))
  | some a =>
    cases a with
    | dict es =>
      exact hmain (dictInit (some (.dict es)) (mergedKwargs (some (.dict es)) kwargs))
    | nonDict t => simp [argOk] at hargs

/-- An optional integer field whose declared default `'boom'` is a
string its own validator rejects — exercising that defaults bypass
validation. -/
def intFieldBadDefault : Field :=
  { required := false, default_value := some (.val (.pystr "boom")),
    validator := intValidator }

/-- C10 witness: the rejected-by-its-own-validator default is stored. -/
theorem c10_defaults_not_validated_w :
    argOk none = true
    ∧ keysNodup ([("a", intFieldBadDefault)] : List (String × Field))
    ∧ (∀ kv ∈ mergedKwargs none ([] : List (String × PyVal)),
        hasKey [("a", intFieldBadDefault)] kv.1 = true
        ∧ validatorOk [("a", intFieldBadDefault)] kv.1 kv.2 = true)
    ∧ ∃ d, baseDocumentInit [("a", intFieldBadDefault)] none [] = .ok d
        ∧ dlookup d "a" = some (.pystr "boom") := by
  have h1 : argOk none = true := rfl
  have h2 : keysNodup ([("a", intFieldBadDefault)] : List (String × Field)) := by
    simp [keysNodup, dkeys]
  have h3 : ∀ kv ∈ mergedKwargs none ([] : List (String × PyVal)),
      hasKey [("a", intFieldBadDefault)] kv.1 = true
      ∧ validatorOk [("a", intFieldBadDefault)] kv.1 kv.2 = true := by
    intro kv hkv
    simp [mergedKwargs] at hkv
  obtain ⟨d, hd, hdef⟩ := c10_defaults_not_validated [("a", intFieldBadDefault)] none [] h1 h2 h3
  exact ⟨h1, h2, h3, d, hd,
    hdef "a" intFieldBadDefault (.val (.pystr "boom")) (List.mem_cons_self _ _) rfl rfl⟩

theorem checkExtraFields_ok (fields : List (String × Field)) :
    ∀ (doc : List (String × PyVal)), (∀ kv ∈ doc, hasKey fields kv.1 = true) →
      checkExtraFields fields doc = .ok () := by
  intro doc
  induction doc with
  | nil => intro _; rfl
  | cons kv rest ih =>
    intro h
    obtain ⟨k, v⟩ := kv
    have hk := h (k, v) (List.mem_cons_self _ _)
    simp only [checkExtraFields, hk, if_true]
    exact ih (fun kv' h' => h kv' (List.mem_cons_of_mem _ h'))

theorem checkExtraFields_first_extra (fields : List (String × Field)) :
    ∀ (doc : List (String × PyVal)), (∃ kv ∈ doc, hasKey fields kv.1 = false) →
      ∃ k w, checkExtraFields fields doc = .error (.validationExtraField k w)
        ∧ hasKey fields k = false ∧ (k, w) ∈ doc := by
  intro doc
  induction doc with
  | nil =>
    rintro ⟨kv, hmem, -⟩
    simp at hmem
  | cons kv0 rest ih =>
    rintro ⟨kv', hmem', hkv'⟩
    obtain ⟨k0, v0⟩ := kv0
    by_cases hk : hasKey fields k0
    · have hex : ∃ kv ∈ rest, hasKey fields kv.1 = false := by
        rcases List.mem_cons.mp hmem' with h1 | h1
        · subst h1
          simp [hk] at hkv'
        · exact ⟨kv', h1, hkv'⟩
      obtain ⟨k, w, hck, hkf, hmem⟩ := ih hex
      refine ⟨k, w, ?_, hkf, List.mem_cons_of_mem _ hmem⟩
      simp only [checkExtraFields, hk, if_true]
      exact hck
    · have hkf : hasKey fields k0 = false := by
        rcases Bool.eq_false_or_eq_true (hasKey fields k0) with h | h
        · exact absurd h hk
        · exact h
      refine ⟨k0, v0, ?_, hkf, List.mem_cons_self _ _⟩
      simp [checkExtraFields, hkf]

theorem checkDeclaredFields_error (doc : List (String × PyVal)) (r : String)
    (fr : Field) :
    ∀ (fields : List (String × Field)), keysNodup fields → (r, fr) ∈ fields →
      fr.required = true → hasKey doc r = false →
      (∀ kf ∈ fields, ∀ w, dlookup doc kf.1 = some w →
        exceptOk (kf.2.validator w kf.1) = true) →
      (∀ kf ∈ fields, kf.2.required = true → kf.1 ≠ r → hasKey doc kf.1 = true) →
      checkDeclaredFields doc fields = .error (.validationRequiredMissing r) := by
  intro fields
  induction fields with
  | nil => intro _ hmem _ _ _ _; simp at hmem
  | cons kf0 rest ih =>
    intro hnd hmem hreq hmiss hpok hothers
    obtain ⟨k0, f0⟩ := kf0
    simp only [keysNodup, dkeys, List.map_cons, List.nodup_cons] at hnd
    rcases List.mem_cons.mp hmem with h1 | h1
    · obtain ⟨hk, hf⟩ := Prod.mk.injEq .. ▸ h1
      subst hk
      have hreq0 : f0.required = true := hf ▸ hreq
      have hnone : dlookup doc r = none := by
        cases hl : dlookup doc r with
        | none => rfl
        | some w => simp [hasKey, hl] at hmiss
      simp only [checkDeclaredFields, hnone, hreq0, if_true]
    · have hk0 : k0 ≠ r := by
        intro he
        exact hnd.1 (he ▸ (List.mem_map.mpr ⟨(r, fr), h1, rfl⟩))
      have hrest := ih hnd.2 h1 hreq hmiss
        (fun kf h' => hpok kf (List.mem_cons_of_mem _ h'))
        (fun kf h' => hothers kf (List.mem_cons_of_mem _ h'))
      cases hl : dlookup doc k0 with
      | some w =>
        have hvok := hpok (k0, f0) (List.mem_cons_self _ _) w hl
        cases hv : f0.validator w k0 with
        | error e => simp [hv, exceptOk] at hvok
        | ok u =>
          simp only [checkDeclaredFields, hl, hv]
          exact hrest
      | none =>
        cases hrq : f0.required with
        | true =>
          have hks := hothers (k0, f0) (List.mem_cons_self _ _) hrq hk0
          simp [hasKey, hl] at hks
        | false =>
          simp only [checkDeclaredFields, hl, hrq, if_false]
          exact hrest

theorem checkDeclaredFields_ok (doc : List (String × PyVal)) :
    ∀ (fields : List (String × Field)),
      (∀ kf ∈ fields, ∀ w, dlookup doc kf.1 = some w →
        exceptOk (kf.2.validator w kf.1) = true) →
      (∀ kf ∈ fields, kf.2.required = true → hasKey doc kf.1 = true) →
      checkDeclaredFields doc fields = .ok () := by
  intro fields
  induction fields with
  | nil => intro _ _; rfl
  | cons kf0 rest ih =>
    intro hpok hreq
    obtain ⟨k0, f0⟩ := kf0
    have hrest := ih (fun kf h' => hpok kf (List.mem_cons_of_mem _ h'))
      (fun kf h' => hreq kf (List.mem_cons_of_mem _ h'))
    cases hl : dlookup doc k0 with
    | some w =>
      have hvok := hpok (k0, f0) (List.mem_cons_self _ _) w hl
      cases hv : f0.validator w k0 with
      | error e => simp [hv, exceptOk] at hvok
      | ok u =>
        simp only [checkDeclaredFields, hl, hv]
        exact hrest
    | none =>
      cases hrq : f0.required with
      | true =>
        have hks := hreq (k0, f0) (List.mem_cons_self _ _) hrq
        simp [hasKey, hl] at hks
      | false =>
        simp only [checkDeclaredFields, hl, hrq, if_false]
        exact hrest

/-- C5: on an otherwise-valid instance whose only missing required field
is `r`, `validate_all` fails with a `ValidationError` naming `r`; after
adding `r` with a valid value it succeeds (the failure being an
instance of `ValidationError`); and on any instance with a present
field not declared in the schema, `validate_all` fails with a
`ValidationError` listing such an offending present field. -/
theorem c5_validate_all_required (fields : List (String × Field))
    (doc : List (String × PyVal)) (r : String) (fr : Field) (v : PyVal)
    (hndd : keysNodup doc) (hndf : keysNodup fields)
    (hnoextra : ∀ kv ∈ doc, hasKey fields kv.1 = true)
    (hpresentok : ∀ kv ∈ doc, validatorOk fields kv.1 kv.2 = true)
    (hr : (r, fr) ∈ fields) (hreq : fr.required = true)
    (hmiss : hasKey doc r = false)
    (hothers : ∀ kf ∈ fields, kf.2.required = true → kf.1 ≠ r →
      hasKey doc kf.1 = true)
    (hvalid : exceptOk (fr.validator v r) = true) :
    validate_all fields doc = .error (.validationRequiredMissing r)
    ∧ validate_all fields (doc ++ [(r, v)]) = .ok ()
    ∧ (errOf (validate_all fields doc)).map Err.isValidationError = some true
    ∧ (∀ doc' : List (String × PyVal),
        (∃ kv ∈ doc', hasKey fields kv.1 = false) →
        ∃ k w, validate_all fields doc' = .error (.validationExtraField k w)
          ∧ Err.isValidationError (.validationExtraField k w) = true
          ∧ hasKey fields k = false ∧ (k, w) ∈ doc') := by
  have hlr : dlookup fields r = some fr := dlookup_eq_some_of_mem fields r fr hndf hr
  have hpok : ∀ kf ∈ fields, ∀ w, dlookup doc kf.1 = some w →
      exceptOk (kf.2.validator w kf.1) = true := by
    intro kf hkf w hw
    have hmemdoc : (kf.1, w) ∈ doc := mem_of_dlookup_eq_some doc kf.1 w hw
    have hvo := hpresentok (kf.1, w) hmemdoc
    have hlf : dlookup fields kf.1 = some kf.2 :=
      dlookup_eq_some_of_mem fields kf.1 kf.2 hndf (by rw [Prod.mk.eta]; exact hkf)
    simpa only [validatorOk, hlf] using hvo
  have herr : validate_all fields doc = .error (.validationRequiredMissing r) := by
    have hex := checkExtraFields_ok fields doc hnoextra
    have hdecl := checkDeclaredFields_error doc r fr fields hndf hr hreq hmiss hpok hothers
    simp only [validate_all, hex]
    exact hdecl
  refine ⟨herr, ?_, by rw [herr]; rfl, ?_⟩
  swap
  · intro doc' hex
    obtain ⟨k, w, hck, hkf, hmem⟩ := checkExtraFields_first_extra fields doc' hex
    refine ⟨k, w, ?_, rfl, hkf, hmem⟩
    simp only [validate_all, hck]
  have hrmem : r ∈ dkeys fields := List.mem_map.mpr ⟨(r, fr), hr, rfl⟩
  have hexok : ∀ kv ∈ doc ++ [(r, v)], hasKey fields kv.1 = true := by
    intro kv hkv
    rcases List.mem_append.mp hkv with h1 | h1
    · exact hnoextra kv h1
    · rcases List.mem_cons.mp h1 with h2 | h2
      · subst h2
        exact (hasKey_iff_mem fields r).mpr hrmem
      · simp at h2
  have hpok' : ∀ kf ∈ fields, ∀ w, dlookup (doc ++ [(r, v)]) kf.1 = some w →
      exceptOk (kf.2.validator w kf.1) = true := by
    intro kf hkf w hw
    rw [dlookup_append] at hw
    cases hdoc : dlookup doc kf.1 with
    | some w0 =>
      rw [hdoc] at hw
      simp only [Option.orElse] at hw
      have hww : w0 = w := Option.some.inj hw
      subst hww
      exact hpok kf hkf w0 hdoc
    | none =>
      rw [hdoc] at hw
      simp only [Option.orElse] at hw
      rw [dlookup_cons] at hw
      by_cases hkr : r = kf.1
      · rw [if_pos hkr] at hw
        cases hw
        have hlf : dlookup fields kf.1 = some kf.2 :=
          dlookup_eq_some_of_mem fields kf.1 kf.2 hndf (by rw [Prod.mk.eta]; exact hkf)
        rw [← hkr] at hlf
        rw [hlr] at hlf
        cases hlf
        rw [← hkr]
        exact hvalid
      · rw [if_neg hkr] at hw
        exact Option.noConfusion hw
  have hreq' : ∀ kf ∈ fields, kf.2.required = true →
      hasKey (doc ++ [(r, v)]) kf.1 = true := by
    intro kf hkf hrq
    by_cases hkr : kf.1 = r
    · rw [hkr]
      simp only [hasKey, dlookup_append]
      cases dlookup doc r <;> simp [Option.orElse, dlookup_cons]
    · have hks := hothers kf hkf hrq hkr
      simp only [hasKey, dlookup_append]
      simp only [hasKey] at hks
      cases hdoc : dlookup doc kf.1 with
      | some w => simp [Option.orElse]
      | none => simp [hdoc] at hks
  have hex' := checkExtraFields_ok fields (doc ++ [(r, v)]) hexok
  have hdecl' := checkDeclaredFields_ok (doc ++ [(r, v)]) fields hpok' hreq'
  simp only [validate_all, hex']
  exact hdecl'

/-- The concrete schema of the `validate_all` scenario:
`{_id: ObjectId optional, foo: str required, bar: int optional}`. -/
def fieldsC5 : List (String × Field) :=
  [("_id", idObjField), ("foo", strField), ("bar", intFieldOpt)]

/-- The concrete instance of the `validate_all` scenario: it has only an
`_id`, so the required `foo` is missing. -/
def docC5 : List (String × PyVal) := [("_id", .oid 1)]

/-- C5 witness: the concrete instance missing required `foo`, and a
concrete instance carrying the undeclared present field `zap`. -/
theorem c5_validate_all_required_w :
    keysNodup docC5 ∧ keysNodup fieldsC5
    ∧ (∀ kv ∈ docC5, hasKey fieldsC5 kv.1 = true)
    ∧ (∀ kv ∈ docC5, validatorOk fieldsC5 kv.1 kv.2 = true)
    ∧ ("foo", strField) ∈ fieldsC5
    ∧ strField.required = true
    ∧ hasKey docC5 "foo" = false
    ∧ (∀ kf ∈ fieldsC5, kf.2.required = true → kf.1 ≠ "foo" →
        hasKey docC5 kf.1 = true)
    ∧ exceptOk (strField.validator (.pystr "x") "foo") = true
    ∧ validate_all fieldsC5 docC5 = .error (.validationRequiredMissing "foo")
    ∧ validate_all fieldsC5 (docC5 ++ [("foo", .pystr "x")]) = .ok ()
    ∧ (∃ kv ∈ ([("_id", PyVal.oid 1), ("zap", PyVal.pyint 3)] :
        List (String × PyVal)), hasKey fieldsC5 kv.1 = false)
    ∧ ∃ k w, validate_all fieldsC5 [("_id", PyVal.oid 1), ("zap", PyVal.pyint 3)]
        = .error (.validationExtraField k w) ∧ hasKey fieldsC5 k = false := by
  have h1 : keysNodup docC5 := by simp [keysNodup, dkeys, docC5]
  have h2 : keysNodup fieldsC5 := by simp [keysNodup, dkeys, fieldsC5]
  have h3 : ∀ kv ∈ docC5, hasKey fieldsC5 kv.1 = true := by
    intro kv hkv
    rcases List.mem_cons.mp hkv with h | h
    · subst h; rfl
    · simp [docC5] at h
  have h4 : ∀ kv ∈ docC5, validatorOk fieldsC5 kv.1 kv.2 = true := by
    intro kv hkv
    rcases List.mem_cons.mp hkv with h | h
    · subst h; rfl
    · simp [docC5] at h
  have h5 : ("foo", strField) ∈ fieldsC5 :=
    List.mem_cons_of_mem _ (List.mem_cons_self _ _)
  have h6 : strField.required = true := rfl
  have h7 : hasKey docC5 "foo" = false := rfl
  have h8 : ∀ kf ∈ fieldsC5, kf.2.required = true → kf.1 ≠ "foo" →
      hasKey docC5 kf.1 = true := by
    intro kf hkf hrq hne
    rcases List.mem_cons.mp hkf with h | h
    · subst h; simp [idObjField] at hrq
    · rcases List.mem_cons.mp h with h' | h'
      · subst h'; exact absurd rfl hne
      · rcases List.mem_cons.mp h' with h'' | h''
        · subst h''; simp [intFieldOpt] at hrq
        · simp [fieldsC5] at h''
  have h9 : exceptOk (strField.validator (.pystr "x") "foo") = true := rfl
  have hc := c5_validate_all_required fieldsC5 docC5 "foo" strField (.pystr "x")
    h1 h2 h3 h4 h5 h6 h7 h8 h9
  have h10 : ∃ kv ∈ ([("_id", PyVal.oid 1), ("zap", PyVal.pyint 3)] :
      List (String × PyVal)), hasKey fieldsC5 kv.1 = false :=
    ⟨("zap", PyVal.pyint 3), List.mem_cons_of_mem _ (List.mem_cons_self _ _), rfl⟩
  obtain ⟨k, w, hkw, -, hkf, -⟩ := hc.2.2.2 [("_id", PyVal.oid 1), ("zap", PyVal.pyint 3)] h10
  exact ⟨h1, h2, h3, h4, h5, h6, h7, h8, h9, hc.1, hc.2.1, h10, k, w, hkw, hkf⟩

/-- A Python class object: a name and the tuple of its declared bases.
Identity is structural (two classes with the same name and bases are
the same class object). -/
inductive PyType where
  | mk (name : String) (bases : List PyType)

/-- `cls.__bases__`. -/
def PyType.getBases : PyType → List PyType
  | .mk _ bs => bs

mutual

/-- Boolean structural equality of class objects. -/
def PyType.beq : PyType → PyType → Bool
  | .mk n1 bs1, .mk n2 bs2 => n1 == n2 && PyType.beqList bs1 bs2

/-- Boolean structural equality of base tuples. -/
def PyType.beqList : List PyType → List PyType → Bool
  | [], [] => true
  | a :: as, b :: bs => PyType.beq a b && PyType.beqList as bs
  | _, _ => false

end

mutual

theorem PyType.beq_iff : ∀ (a b : PyType), PyType.beq a b = true ↔ a = b
  | .mk n1 bs1, .mk n2 bs2 => by
    rw [show PyType.beq (.mk n1 bs1) (.mk n2 bs2)
        = ((n1 == n2) && PyType.beqList bs1 bs2) from rfl]
    rw [Bool.and_eq_true, beq_iff_eq, PyType.beqList_iff bs1 bs2]
    constructor
    · rintro ⟨h1, h2⟩
      rw [h1, h2]
    · intro h
      injection h with h1 h2
      exact ⟨h1, h2⟩

theorem PyType.beqList_iff : ∀ (as bs : List PyType),
    PyType.beqList as bs = true ↔ as = bs
  | [], [] => by simp [PyType.beqList]
  | [], _ :: _ => by simp [PyType.beqList]
  | _ :: _, [] => by simp [PyType.beqList]
  | a :: as, b :: bs => by
    rw [show PyType.beqList (a :: as) (b :: bs)
        = (PyType.beq a b && PyType.beqList as bs) from rfl]
    rw [Bool.and_eq_true, PyType.beq_iff a b, PyType.beqList_iff as bs]
    constructor
    · rintro ⟨h1, h2⟩
      rw [h1, h2]
    · intro h
      injection h with h1 h2
      exact ⟨h1, h2⟩

end

instance : DecidableEq PyType := fun a b => decidable_of_iff _ (PyType.beq_iff a b)

/-- The universal base type `object`. -/
def objectType : PyType := .mk "object" []

/-- Modelled from the spec: `DotNotationMixin` (util.py is absent) is
the opt-in dot-notation capability type; only its identity matters. -/
def dotNotationMixin : PyType := .mk "DotNotationMixin" []

mutual

/-- What `DocumentMeta.__get_bases` yields for one non-`object` base:
the base itself, then the traversal of its own `__bases__`. -/
def getBasesOne : PyType → List PyType
  | .mk n bs => .mk n bs :: getBasesList bs

/-- The generator `DocumentMeta.__get_bases` (document.py lines
121-128): depth-first over the declared bases, yielding each
encountered ancestor before its own bases and skipping `object`. -/
def getBasesList : List PyType → List PyType
  | [] => []
  | b :: rest =>
    (if b = objectType then [] else getBasesOne b) ++ getBasesList rest

end

theorem getBasesOne_eq (b : PyType) :
    getBasesOne b = b :: getBasesList b.getBases := by
  cases b
  rfl

theorem getBasesList_cons (b : PyType) (rest : List PyType) :
    getBasesList (b :: rest)
      = (if b = objectType then [] else b :: getBasesList b.getBases)
        ++ getBasesList rest := by
  rw [getBasesList, getBasesOne_eq]

/-- The deduplication loop of `DocumentMeta._get_bases` (document.py
lines 116-119): keep each element's first occurrence, tracked by the
`seen` list. -/
def dedupFirstGo {α : Type} [DecidableEq α] (seen : List α) : List α → List α
  | [] => []
  | b :: rest =>
    if b ∈ seen then dedupFirstGo seen rest
    else b :: dedupFirstGo (seen ++ [b]) rest

/-- First-occurrence deduplication. -/
def dedupFirst {α : Type} [DecidableEq α] (l : List α) : List α :=
  dedupFirstGo [] l

/-- `DocumentMeta._get_bases` (document.py lines 111-119): an already
reprocessed `BasesTuple` is returned as is; a plain declaration tuple is
traversed depth-first and deduplicated. -/
def getBasesM (isBasesTuple : Bool) (bases : List PyType) : List PyType :=
  if isBasesTuple then bases else dedupFirst (getBasesList bases)

/-- `DocumentMeta.__new__` (document.py lines 79-86): resolve the base
list, then prepend the dot-notation capability if requested and not
already present. -/
def documentMetaNew (bases : List PyType) (useDot : Bool) : List PyType :=
  let nb := getBasesM false bases
  if useDot = true ∧ dotNotationMixin ∉ nb then dotNotationMixin :: nb else nb

/-- The proper-ancestor relation generated by a declared base list:
every non-`object` declared base, and recursively every non-`object`
entry of an ancestor's own base tuple. -/
inductive Anc : List PyType → PyType → Prop where
  | here (bs : List PyType) (b : PyType) : b ∈ bs → b ≠ objectType → Anc bs b
  | deeper (bs : List PyType) (b x : PyType) :
      b ∈ bs → b ≠ objectType → Anc b.getBases x → Anc bs x

theorem Anc_ne_object (bs : List PyType) (x : PyType) (h : Anc bs x) :
    x ≠ objectType := by
  induction h with
  | here _ _ _ hne => exact hne
  | deeper _ _ _ _ _ _ ih => exact ih

theorem Anc_cons (b : PyType) (rest : List PyType) (x : PyType)
    (h : Anc rest x) : Anc (b :: rest) x := by
  cases h with
  | here _ _ hm hne => exact .here _ _ (List.mem_cons_of_mem _ hm) hne
  | deeper _ b' _ hm hne ha => exact .deeper _ b' _ (List.mem_cons_of_mem _ hm) hne ha

theorem mem_getBasesList : ∀ (l : List PyType) (x : PyType),
    x ∈ getBasesList l ↔ Anc l x
  | [], x => by
    constructor
    · intro h
      simp [getBasesList] at h
    · intro h
      cases h with
      | here _ _ hm _ => simp at hm
      | deeper _ _ _ hm _ _ => simp at hm
  | b :: rest, x => by
    have ih1 := mem_getBasesList b.getBases x
    have ih2 := mem_getBasesList rest x
    rw [show getBasesList (b :: rest)
        = (if b = objectType then [] else b :: getBasesList b.getBases)
          ++ getBasesList rest from getBasesList_cons b rest]
    by_cases hb : b = objectType
    · rw [if_pos hb, List.nil_append, ih2]
      constructor
      · exact Anc_cons b rest x
      · intro h
        cases h with
        | here _ _ hm hne =>
          rcases List.mem_cons.mp hm with h1 | h1
          · exact absurd (h1 ▸ hb) hne
          · exact .here _ _ h1 hne
        | deeper _ b' _ hm hne ha =>
          rcases List.mem_cons.mp hm with h1 | h1
          · exact absurd (h1 ▸ hb) hne
          · exact .deeper _ b' _ h1 hne ha
    · rw [if_neg hb]
      constructor
      · intro h
        rcases List.mem_append.mp h with h1 | h1
        · rcases List.mem_cons.mp h1 with h2 | h2
          · exact h2 ▸ .here _ _ (List.mem_cons_self _ _) (h2 ▸ hb)
          · exact .deeper _ b _ (List.mem_cons_self _ _) hb (ih1.mp h2)
        · exact Anc_cons b rest x (ih2.mp h1)
      · intro h
        cases h with
        | here _ _ hm hne =>
          rcases List.mem_cons.mp hm with h1 | h1
          · exact List.mem_append.mpr (Or.inl (h1 ▸ List.mem_cons_self _ _))
          · exact List.mem_append.mpr (Or.inr (ih2.mpr (.here _ _ h1 hne)))
        | deeper _ b' _ hm hne ha =>
          rcases List.mem_cons.mp hm with h1 | h1
          · subst h1
            exact List.mem_append.mpr
              (Or.inl (List.mem_cons_of_mem _ (ih1.mpr ha)))
          · exact List.mem_append.mpr (Or.inr (ih2.mpr (.deeper _ b' _ h1 hne ha)))
  termination_by l _ => sizeOf l
  decreasing_by
  all_goals cases b
  all_goals simp [PyType.getBases]
  all_goals omega

theorem mem_dedupFirstGo {α : Type} [DecidableEq α] :
    ∀ (l seen : List α) (x : α),
      x ∈ dedupFirstGo seen l ↔ x ∈ l ∧ x ∉ seen := by
  intro l
  induction l with
  | nil => intro seen x; simp [dedupFirstGo]
  | cons b rest ih =>
    intro seen x
    by_cases hb : b ∈ seen
    · rw [show dedupFirstGo seen (b :: rest) = dedupFirstGo seen rest from by
        simp [dedupFirstGo, hb]]
      rw [ih]
      constructor
      · rintro ⟨h1, h2⟩
        exact ⟨List.mem_cons_of_mem _ h1, h2⟩
      · rintro ⟨h1, h2⟩
        rcases List.mem_cons.mp h1 with h3 | h3
        · exact absurd (h3 ▸ hb) h2
        · exact ⟨h3, h2⟩
    · rw [show dedupFirstGo seen (b :: rest)
          = b :: dedupFirstGo (seen ++ [b]) rest from by
        simp [dedupFirstGo, hb]]
      constructor
      · intro h
        rcases List.mem_cons.mp h with h1 | h1
        · exact ⟨h1 ▸ List.mem_cons_self _ _, h1 ▸ hb⟩
        · obtain ⟨h2, h3⟩ := (ih (seen ++ [b]) x).mp h1
          simp only [List.mem_append, List.mem_singleton] at h3
          push_neg at h3
          exact ⟨List.mem_cons_of_mem _ h2, h3.1⟩
      · rintro ⟨h1, h2⟩
        rcases List.mem_cons.mp h1 with h3 | h3
        · exact h3 ▸ List.mem_cons_self _ _
        · by_cases hxb : x = b
          · exact hxb ▸ List.mem_cons_self _ _
          · refine List.mem_cons_of_mem _ ((ih (seen ++ [b]) x).mpr ⟨h3, ?_⟩)
            simp only [List.mem_append, List.mem_singleton]
            push_neg
            exact ⟨h2, hxb⟩

theorem nodup_dedupFirstGo {α : Type} [DecidableEq α] :
    ∀ (l seen : List α), (dedupFirstGo seen l).Nodup := by
  intro l
  induction l with
  | nil => intro seen; simp [dedupFirstGo]
  | cons b rest ih =>
    intro seen
    by_cases hb : b ∈ seen
    · rw [show dedupFirstGo seen (b :: rest) = dedupFirstGo seen rest from by
        simp [dedupFirstGo, hb]]
      exact ih seen
    · rw [show dedupFirstGo seen (b :: rest)
          = b :: dedupFirstGo (seen ++ [b]) rest from by
        simp [dedupFirstGo, hb]]
      refine List.nodup_cons.mpr ⟨?_, ih (seen ++ [b])⟩
      intro hmem
      obtain ⟨-, h2⟩ := (mem_dedupFirstGo rest (seen ++ [b]) b).mp hmem
      simp at h2

theorem sublist_dedupFirstGo {α : Type} [DecidableEq α] :
    ∀ (l seen : List α), List.Sublist (dedupFirstGo seen l) l := by
  intro l
  induction l with
  | nil => intro seen; simp [dedupFirstGo]
  | cons b rest ih =>
    intro seen
    by_cases hb : b ∈ seen
    · rw [show dedupFirstGo seen (b :: rest) = dedupFirstGo seen rest from by
        simp [dedupFirstGo, hb]]
      exact (ih seen).cons b
    · rw [show dedupFirstGo seen (b :: rest)
          = b :: dedupFirstGo (seen ++ [b]) rest from by
        simp [dedupFirstGo, hb]]
      exact (ih (seen ++ [b])).cons₂ b

theorem indexOf_dedupFirstGo {α : Type} [DecidableEq α] :
    ∀ (l seen : List α) (x y : α),
      x ∈ dedupFirstGo seen l → y ∈ dedupFirstGo seen l → x ≠ y →
      ((dedupFirstGo seen l).indexOf x < (dedupFirstGo seen l).indexOf y ↔
        l.indexOf x < l.indexOf y) := by
  intro l
  induction l with
  | nil =>
    intro seen x y hx _ _
    simp [dedupFirstGo] at hx
  | cons b rest ih =>
    intro seen x y hx hy hxy
    by_cases hb : b ∈ seen
    · have hrw : dedupFirstGo seen (b :: rest) = dedupFirstGo seen rest := by
        simp [dedupFirstGo, hb]
      rw [hrw] at hx hy
      have hxb : b ≠ x := by
        intro he
        exact absurd (he ▸ hb) ((mem_dedupFirstGo rest seen x).mp hx).2
      have hyb : b ≠ y := by
        intro he
        exact absurd (he ▸ hb) ((mem_dedupFirstGo rest seen y).mp hy).2
      rw [hrw, List.indexOf_cons_ne _ hxb, List.indexOf_cons_ne _ hyb]
      rw [Nat.succ_lt_succ_iff]
      exact ih seen x y hx hy hxy
    · have hrw : dedupFirstGo seen (b :: rest)
          = b :: dedupFirstGo (seen ++ [b]) rest := by
        simp [dedupFirstGo, hb]
      rw [hrw] at hx hy
      rw [hrw]
      by_cases hxb : x = b
      · subst hxb
        simp only [List.indexOf_cons_self, List.indexOf_cons_ne _ hxy]
        simp [Nat.succ_pos]
      · by_cases hyb : y = b
        · subst hyb
          have hyx : y ≠ x := fun he => hxy he.symm
          simp only [List.indexOf_cons_self, List.indexOf_cons_ne _ hyx]
          simp
        · have hxmem : x ∈ dedupFirstGo (seen ++ [b]) rest := by
            rcases List.mem_cons.mp hx with h1 | h1
            · exact absurd h1 hxb
            · exact h1
          have hymem : y ∈ dedupFirstGo (seen ++ [b]) rest := by
            rcases List.mem_cons.mp hy with h1 | h1
            · exact absurd h1 hyb
            · exact h1
          have hbx : b ≠ x := fun he => hxb he.symm
          have hby : b ≠ y := fun he => hyb he.symm
          simp only [List.indexOf_cons_ne _ hbx, List.indexOf_cons_ne _ hby,
            Nat.succ_lt_succ_iff]
          exact ih (seen ++ [b]) x y hxmem hymem hxy

/-- C9: at type declaration the ancestor list is linearized by a
depth-first traversal that yields each proper ancestor exactly once
(no duplicates, `object` skipped, membership is exactly the
proper-ancestor relation), in first-seen order (a sublist of the DFS
stream whose relative order matches the stream's first occurrences);
and the dot-notation mixin is prepended exactly when requested and not
already among the resolved ancestors. -/
theorem c9_base_linearization (bases : List PyType) (useDot : Bool) :
    (getBasesM false bases).Nodup
    ∧ objectType ∉ getBasesM false bases
    ∧ (∀ x, x ∈ getBasesM false bases ↔ Anc bases x)
    ∧ List.Sublist (getBasesM false bases) (getBasesList bases)
    ∧ (∀ x y, x ∈ getBasesM false bases → y ∈ getBasesM false bases → x ≠ y →
        ((getBasesM false bases).indexOf x < (getBasesM false bases).indexOf y ↔
          (getBasesList bases).indexOf x < (getBasesList bases).indexOf y))
    ∧ (useDot = true → dotNotationMixin ∉ getBasesM false bases →
        documentMetaNew bases useDot = dotNotationMixin :: getBasesM false bases)
    ∧ ((useDot = false ∨ dotNotationMixin ∈ getBasesM false bases) →
        documentMetaNew bases useDot = getBasesM false bases) := by
  have hmem : ∀ x, x ∈ getBasesM false bases ↔ Anc bases x := by
    intro x
    show x ∈ dedupFirst (getBasesList bases) ↔ Anc bases x
    rw [dedupFirst, mem_dedupFirstGo]
    simp only [List.not_mem_nil, not_false_iff, and_true]
    exact mem_getBasesList bases x
  refine ⟨nodup_dedupFirstGo _ _, ?_, hmem, sublist_dedupFirstGo _ _,
    fun x y hx hy hxy => indexOf_dedupFirstGo _ _ x y hx hy hxy, ?_, ?_⟩
  · intro hobj
    exact absurd rfl (Anc_ne_object bases objectType ((hmem objectType).mp hobj))
  · intro hdot hnmem
    show (if useDot = true ∧ dotNotationMixin ∉ getBasesM false bases then _ else _) = _
    rw [if_pos ⟨hdot, hnmem⟩]
  · intro h
    show (if useDot = true ∧ dotNotationMixin ∉ getBasesM false bases then _ else _) = _
    rcases h with h | h
    · rw [if_neg (fun hc => by rw [h] at hc; exact Bool.false_ne_true hc.1)]
    · rw [if_neg (fun hc => hc.2 h)]

/-- A small diamond hierarchy for the linearization witness:
`C`, `B(C)`, `A(B, object)`, `D(B)`; declaring with bases `(A, D)`. -/
def pyC : PyType := .mk "C" []

/-- `class B(C)`. -/
def pyB : PyType := .mk "B" [pyC]

/-- `class A(B, object)`. -/
def pyA : PyType := .mk "A" [pyB, objectType]

/-- `class D(B)`. -/
def pyD : PyType := .mk "D" [pyB]

/-- The declared base tuple `(A, D)` of the witness. -/
def basesC9 : List PyType := [pyA, pyD]

/-- C9 witness: in the diamond, the DFS stream is `[A, B, C, D, B, C]`,
the resolved bases are `[A, B, C, D]`, first-seen order is preserved
(`B` before `D`), and with `dot_notation=True` the mixin is prepended. -/
theorem c9_base_linearization_w :
    pyB ∈ getBasesM false basesC9
    ∧ pyD ∈ getBasesM false basesC9
    ∧ pyB ≠ pyD
    ∧ ((getBasesM false basesC9).indexOf pyB < (getBasesM false basesC9).indexOf pyD ↔
        (getBasesList basesC9).indexOf pyB < (getBasesList basesC9).indexOf pyD)
    ∧ dotNotationMixin ∉ getBasesM false basesC9
    ∧ documentMetaNew basesC9 true = dotNotationMixin :: getBasesM false basesC9 := by
  have h1 : pyB ∈ getBasesM false basesC9 := by decide
  have h2 : pyD ∈ getBasesM false basesC9 := by decide
  have h3 : pyB ≠ pyD := by decide
  have h5 : dotNotationMixin ∉ getBasesM false basesC9 := by decide
  exact ⟨h1, h2, h3,
    (c9_base_linearization basesC9 true).2.2.2.2.1 pyB pyD h1 h2 h3, h5,
    (c9_base_linearization basesC9 true).2.2.2.2.2.1 rfl h5⟩

end nanomongo
